import Mathlib

/-!
Shallow embedding of `src/lib.rs` of the social_choice_theory crate.

The crate defines `PreOrder<T>` (a ranked ballot: a `Vec<T>` ordered from
most- to least-preferred), `Vote<T>` (a `HashSet<T>` of candidates plus a
`Vec<(usize, PreOrder<T>)>` of weighted ballots), the pairwise query
`who_is_first`, and the two winner algorithms `condorcet_winner` and
`one_stage`.

Modelling choices:
* A `PreOrder<T>` is a `List T`; a weighted ballot `(usize, PreOrder<T>)`
  is a `Nat × List T`.
* The `HashSet<T>` of candidates is a `List T` standing for the set in its
  (arbitrary) iteration order; theorems quantify over that order, or are
  proved for every order where a concrete set is involved.
* A Rust panic (the `unwrap()` in `condorcet_winner`, the `ballot[0]` index
  and the `unreachable!()` in `one_stage`) is modelled by `Option`: the
  functions return `none` exactly when the Rust code panics, and
  `some r` when the Rust code returns the `Option<&T>` value `r`.
* The `HashMap<&T, usize>` of `one_stage` is an association list in
  insertion order.  `sorted_by_key` is a stable ascending sort by score;
  the loop over the sorted entries only ever inspects the first two of
  them, so the observable value of `one_stage` does not depend on the
  arbitrary `HashMap` iteration order whenever the relevant scores are
  distinct (every concrete evaluation below is in that situation).
-/

namespace SocialChoice

variable {T : Type} [DecidableEq T]

/-- Embedding of `PreOrder::who_is_first` (src/lib.rs lines 26-36): scan the
ranking front to back; at each element first test `a`, then `b`; return the
one that matches first, `none` when the scan exhausts the list. -/
def who_is_first (l : List T) (a b : T) : Option T :=
  match l with
  | [] => none
  | it :: rest => if a = it then some a else if b = it then some b else who_is_first rest a b

/-- Embedding of `Vote<T>` (src/lib.rs lines 41-45): the candidate set (as a
list in its iteration order) and the weighted ballots. -/
structure Vote (T : Type) where
  candidates : List T
  ballots : List (Nat × List T)

/-- Embedding of the innermost loop of `condorcet_winner` (src/lib.rs lines
54-61): tally one pair `(c, o)` over all ballots.  `scores.0` gets the weight
of each ballot whose unwrapped `who_is_first c o` equals `c`, `scores.1` the
weight of every other ballot.  `none` models the `unwrap()` panic on a ballot
containing neither `c` nor `o`. -/
def pairTally (ballots : List (Nat × List T)) (c o : T) : Option (Nat × Nat) :=
  match ballots with
  | [] => some (0, 0)
  | (w, pre) :: rest =>
    match who_is_first pre c o with
    | none => none
    | some x =>
      match pairTally rest c o with
      | none => none
      | some (s0, s1) => if x = c then some (s0 + w, s1) else some (s0, s1 + w)

/-- Embedding of the middle loop of `condorcet_winner` (src/lib.rs lines
53-65): run `pairTally` against each remaining opponent; `some false` models
`continue 'outer` (the candidate is abandoned as soon as `scores.0 <=
scores.1`, so later opponents are not examined), `some true` models falling
through to `res = Some(candidate)`, `none` models a panic. -/
def checkCandidate (ballots : List (Nat × List T)) (c : T) : List T → Option Bool
  | [] => some true
  | o :: rest =>
    match pairTally ballots c o with
    | none => none
    | some (s0, s1) => if s0 ≤ s1 then some false else checkCandidate ballots c rest

/-- Embedding of the outer loop of `condorcet_winner` (src/lib.rs lines
49-68): walk the candidate set, keeping in `res` the last candidate that beat
every opponent.  `self.candidates.difference(&{c})` is `all.filter (· ≠ c)`,
in the same iteration order as the outer walk. -/
def condorcetLoop (ballots : List (Nat × List T)) (all : List T) :
    List T → Option T → Option (Option T)
  | [], res => some res
  | c :: rest, res =>
    match checkCandidate ballots c (all.filter (fun x => x ≠ c)) with
    | none => none
    | some true => condorcetLoop ballots all rest (some c)
    | some false => condorcetLoop ballots all rest res

/-- Embedding of `Vote::condorcet_winner` (src/lib.rs lines 48-69).  The
outer `Option` models panic/no-panic, the inner one the Rust return value. -/
def condorcet_winner (v : Vote T) : Option (Option T) :=
  condorcetLoop v.ballots v.candidates v.candidates none

/-- Embedding of `scores.entry(candidate).and_modify(|x| *x += *n).or_insert(0)`
(src/lib.rs lines 78-80) on the association-list model of the `HashMap`: an
existing entry gains `n`, a fresh key is inserted with score `0` (the source
really inserts `0`, not `n`). -/
def addScore (m : List (T × Nat)) (c : T) (n : Nat) : List (T × Nat) :=
  match m with
  | [] => [(c, 0)]
  | (k, v) :: rest => if k = c then (k, v + n) :: rest else (k, v) :: addScore rest c n

/-- Embedding of the tally loop of `one_stage` (src/lib.rs lines 74-81): fold
the ballots left to right into the score map, keyed by each ballot's
`&ballot[0]`.  `none` models the index panic on an empty ballot. -/
def buildScoresAux (acc : List (T × Nat)) : List (Nat × List T) → Option (List (T × Nat))
  | [] => some acc
  | (n, pre) :: rest =>
    match pre.head? with
    | none => none
    | some c => buildScoresAux (addScore acc c n) rest

/-- The score map of `one_stage`, built from the empty map. -/
def buildScores (ballots : List (Nat × List T)) : Option (List (T × Nat)) :=
  buildScoresAux [] ballots

/-- Stable insertion into a list sorted ascending by score. -/
def insertAsc (p : T × Nat) : List (T × Nat) → List (T × Nat)
  | [] => [p]
  | q :: rest => if p.2 < q.2 then p :: q :: rest else q :: insertAsc p rest

/-- Embedding of `scores.iter().sorted_by_key(|s| s.1)` (src/lib.rs line 83):
a stable ascending sort of the entries by score. -/
def sortByScore : List (T × Nat) → List (T × Nat)
  | [] => []
  | p :: rest => insertAsc p (sortByScore rest)

/-- Embedding of the selection loop of `one_stage` (src/lib.rs lines 82-93):
walk the ascending-sorted entries; the first iteration stores the entry in
`winner`; the second returns `None` on equal scores and otherwise
`Some(candidate_old)` — the stored, lowest-scoring candidate.  Falling off the
list reaches `unreachable!()`, modelled by `none`. -/
def oneStageLoop : List (T × Nat) → Option (T × Nat) → Option (Option T)
  | [], none => none
  | [], some _ => none
  | (c, s) :: rest, none => oneStageLoop rest (some (c, s))
  | (_, s) :: _, some (cOld, sOld) => some (if sOld = s then none else some cOld)

/-- Embedding of `Vote::one_stage` (src/lib.rs lines 73-94).  The outer
`Option` models panic/no-panic, the inner one the Rust return value. -/
def one_stage (v : Vote T) : Option (Option T) :=
  match buildScores v.ballots with
  | none => none
  | some m => oneStageLoop (sortByScore m) none

/-- Summed weight of the ballots that prefer `x` over `y` in the sense of the
ballot query: those whose `who_is_first x y` is `some x`.  This is the
measure the spec's majority properties speak about. -/
def prefWeight : List (Nat × List T) → T → T → Nat
  | [], _, _ => 0
  | (n, pre) :: rest, x, y =>
    (if who_is_first pre x y = some x then n else 0) + prefWeight rest x y

/-- Summed first-preference weight of candidate `c`: the total weight of the
ballots whose most-preferred entry is `c`.  This is the tally the spec says
`one_stage` accumulates. -/
def firstChoiceWeight : List (Nat × List T) → T → Nat
  | [], _ => 0
  | (n, pre) :: rest, c =>
    (if pre.head? = some c then n else 0) + firstChoiceWeight rest c

/-- The election of the crate's test `condorcet_1` (a=0, b=1, c=2). -/
def voteTest1 : Vote Nat :=
  ⟨[0, 1, 2], [(35, [0, 1, 2]), (25, [1, 2, 0]), (15, [2, 1, 0])]⟩

/-- The election of the crate's test `condorcet_2` (a=0, b=1, c=2, d=3). -/
def voteTest2 : Vote Nat :=
  ⟨[0, 1, 2, 3],
   [(42, [0, 1, 2, 3]), (26, [1, 2, 3, 0]), (17, [3, 2, 1, 0]), (15, [2, 3, 1, 0])]⟩

/-- Election whose true first-choice weights are 7 for candidate 0 and 3 for
candidate 1, while the score map the code builds is `0 ↦ 4, 1 ↦ 2` (each
candidate's first ballot weight is lost to `or_insert(0)`). -/
def voteLowest : Vote Nat :=
  ⟨[0, 1], [(3, [0, 1]), (4, [0, 1]), (1, [1, 0]), (2, [1, 0])]⟩

/-- Election with a two-way first-choice tie at the top (candidates 0 and 1
at weight 10) above a lower-scoring candidate 2 (weight 5). -/
def voteTieTop : Vote Nat :=
  ⟨[0, 1, 2], [(10, [0, 1, 2]), (4, [1, 0, 2]), (6, [1, 0, 2]), (2, [2, 0, 1]), (3, [2, 0, 1])]⟩

/-- The spec's Scenario D: ballots (10: a>b>c) and (10: b>a>c). -/
def voteScenarioD : Vote Nat :=
  ⟨[0, 1, 2], [(10, [0, 1, 2]), (10, [1, 0, 2])]⟩

/-- Election whose ballots all put the non-candidate 9 somewhere; the
heaviest first choice among actual candidates is 0, but the ballot ranking
entries are not restricted to the candidate set `{0, 1}`. -/
def voteStray : Vote Nat :=
  ⟨[0, 1], [(1, [9, 0, 1]), (2, [0, 9, 1]), (3, [0, 9, 1])]⟩

/-- The spec's Scenario C: candidates {a, b}, ballots (10: a>b), (10: b>a). -/
def scenarioCBallots : List (Nat × List Nat) :=
  [(10, [0, 1]), (10, [1, 0])]

/-- Election in which every ballot's first choice is candidate 0. -/
def voteSoleFirst : Vote Nat :=
  ⟨[0], [(5, [0]), (3, [0])]⟩

/-- Scan result is `none` exactly when neither queried candidate occurs. -/
theorem who_is_first_eq_none_iff (l : List T) (a b : T) :
    who_is_first l a b = none ↔ a ∉ l ∧ b ∉ l := by
  induction l with
  | nil => simp [who_is_first]
  | cons it rest ih =>
    by_cases ha : a = it
    · subst ha; simp [who_is_first]
    · by_cases hb : b = it
      · subst hb; simp [who_is_first, ha]
      · simp only [who_is_first, if_neg ha, if_neg hb, ih, List.mem_cons]
        constructor
        · rintro ⟨h1, h2⟩
          exact ⟨by rintro (rfl | h) <;> [exact ha rfl; exact h1 h],
                 by rintro (rfl | h) <;> [exact hb rfl; exact h2 h]⟩
        · rintro ⟨h1, h2⟩
          exact ⟨fun h => h1 (Or.inr h), fun h => h2 (Or.inr h)⟩

/-- The scan returns the first element of the ranking equal to `a` or `b`. -/
theorem who_is_first_eq_find (l : List T) (a b : T) :
    who_is_first l a b = List.find? (fun x => x == a || x == b) l := by
  induction l with
  | nil => simp [who_is_first]
  | cons it rest ih =>
    by_cases ha : a = it
    · subst ha; simp [who_is_first]
    · by_cases hb : b = it
      · subst hb
        simp only [who_is_first, if_neg ha, if_pos rfl]
        have : (fun x => x == a || x == b) b = true := by simp
        simp [List.find?_cons, this, Ne.symm ha]
      · have hpred : (fun x => x == a || x == b) it = false := by
          simp [Ne.symm ha, Ne.symm hb]
        simp only [who_is_first, if_neg ha, if_neg hb, ih, List.find?_cons, hpred]

/-- The scan only ever returns one of its two arguments. -/
theorem who_is_first_mem (l : List T) (a b x : T) :
    who_is_first l a b = some x → x = a ∨ x = b := by
  induction l with
  | nil => simp [who_is_first]
  | cons it rest ih =>
    by_cases ha : a = it
    · subst ha; simp [who_is_first]
      rintro rfl; exact Or.inl rfl
    · by_cases hb : b = it
      · subst hb
        simp only [who_is_first, if_neg ha, if_pos rfl]
        rintro h; cases h; exact Or.inr rfl
      · simp only [who_is_first, if_neg ha, if_neg hb]
        exact ih

/-- Preferring `b` over `a` is symmetric in the order the pair is queried. -/
theorem who_is_first_swap (l : List T) (a b : T) (hab : a ≠ b) :
    who_is_first l a b = some b ↔ who_is_first l b a = some b := by
  induction l with
  | nil => simp [who_is_first]
  | cons it rest ih =>
    by_cases ha : a = it
    · subst ha
      simp [who_is_first, hab, Ne.symm hab]
    · by_cases hb : b = it
      · subst hb; simp [who_is_first, ha]
      · simp only [who_is_first, if_neg ha, if_neg hb]
        exact ih

/-- C6: `who_is_first(a, b)` scans the ranking from most- to least-preferred
and returns whichever of `a` or `b` is encountered first — the first element
of the ranking equal to `a` or to `b` — and returns `none` exactly when
neither `a` nor `b` occurs anywhere in the ranking. -/
theorem who_is_first_spec (l : List T) (a b : T) :
    who_is_first l a b = List.find? (fun x => x == a || x == b) l ∧
    (who_is_first l a b = none ↔ a ∉ l ∧ b ∉ l) :=
  ⟨who_is_first_eq_find l a b, who_is_first_eq_none_iff l a b⟩

/-- A completed pair tally computes exactly the two pairwise preference
weights of the pair it examines. -/
theorem pairTally_eq (ballots : List (Nat × List T)) (c o : T) (hco : c ≠ o)
    (s0 s1 : Nat) (h : pairTally ballots c o = some (s0, s1)) :
    s0 = prefWeight ballots c o ∧ s1 = prefWeight ballots o c := by
  induction ballots generalizing s0 s1 with
  | nil =>
    simp only [pairTally, Option.some.injEq, Prod.mk.injEq] at h
    simp [prefWeight, ← h.1, ← h.2]
  | cons wb rest ih =>
    obtain ⟨w, pre⟩ := wb
    cases hw : who_is_first pre c o with
    | none => simp [pairTally, hw] at h
    | some x =>
      cases ht : pairTally rest c o with
      | none => simp [pairTally, hw, ht] at h
      | some p =>
        obtain ⟨t0, t1⟩ := p
        obtain ⟨ih0, ih1⟩ := ih t0 t1 ht
        simp only [pairTally, hw, ht] at h
        rcases who_is_first_mem pre c o x hw with hx | hx
        · rw [if_pos hx] at h
          rw [hx] at hw
          have hoc : who_is_first pre o c ≠ some o := by
            intro hcon
            have hctr : who_is_first pre c o = some o := (who_is_first_swap pre c o hco).mpr hcon
            rw [hw] at hctr
            exact hco (Option.some.inj hctr)
          obtain ⟨h0, h1⟩ : t0 + w = s0 ∧ t1 = s1 := by
            simpa [Prod.mk.injEq] using h
          constructor
          · rw [← h0, ih0]
            simp [prefWeight, hw]
            omega
          · rw [← h1, ih1]
            simp [prefWeight, hoc]
        · have hxc : ¬ x = c := by rw [hx]; exact Ne.symm hco
          rw [if_neg hxc] at h
          rw [hx] at hw
          have hoc : who_is_first pre o c = some o :=
            (who_is_first_swap pre c o hco).mp hw
          have hnc : who_is_first pre c o ≠ some c := by
            rw [hw]
            intro hcon
            exact hco (Option.some.inj hcon).symm
          obtain ⟨h0, h1⟩ : t0 = s0 ∧ t1 + w = s1 := by
            simpa [Prod.mk.injEq] using h
          constructor
          · rw [← h0, ih0]
            simp [prefWeight, hnc]
          · rw [← h1, ih1]
            simp [prefWeight, hoc]
            omega

/-- A candidate the middle loop accepts strictly beat every listed opponent. -/
theorem checkCandidate_eq_true (ballots : List (Nat × List T)) (c : T) (others : List T)
    (h : checkCandidate ballots c others = some true) :
    ∀ o ∈ others, ∃ s0 s1, pairTally ballots c o = some (s0, s1) ∧ s1 < s0 := by
  induction others with
  | nil => simp
  | cons o' rest ih =>
    intro o ho
    cases hpt : pairTally ballots c o' with
    | none => simp [checkCandidate, hpt] at h
    | some p =>
      obtain ⟨s0, s1⟩ := p
      simp only [checkCandidate, hpt] at h
      by_cases hle : s0 ≤ s1
      · rw [if_pos hle] at h
        exact absurd h (by simp)
      · rw [if_neg hle] at h
        rcases List.mem_cons.mp ho with rfl | ho'
        · exact ⟨s0, s1, hpt, by omega⟩
        · exact ih h o ho'

/-- A winner the outer loop reports was either carried in from `res` or is a
member of the walked list that passed the middle loop against every other
member of the candidate set. -/
theorem condorcetLoop_eq_some (ballots : List (Nat × List T)) (all : List T)
    (l : List T) (res : Option T) (w : T)
    (h : condorcetLoop ballots all l res = some (some w)) :
    res = some w ∨
      (w ∈ l ∧ checkCandidate ballots w (all.filter (fun x => x ≠ w)) = some true) := by
  induction l generalizing res with
  | nil =>
    simp only [condorcetLoop, Option.some.injEq] at h
    exact Or.inl h
  | cons c rest ih =>
    cases hc : checkCandidate ballots c (all.filter (fun x => x ≠ c)) with
    | none =>
      simp only [condorcetLoop, hc] at h
      exact Option.noConfusion h
    | some b =>
      cases b
      · simp only [condorcetLoop, hc] at h
        rcases ih _ h with h1 | ⟨h2, h3⟩
        · exact Or.inl h1
        · exact Or.inr ⟨List.mem_cons_of_mem _ h2, h3⟩
      · simp only [condorcetLoop, hc] at h
        rcases ih _ h with h1 | ⟨h2, h3⟩
        · have hcw : c = w := Option.some.inj h1
          subst hcw
          exact Or.inr ⟨List.mem_cons_self _ _, hc⟩
        · exact Or.inr ⟨List.mem_cons_of_mem _ h2, h3⟩

/-- C1: whenever `condorcet_winner` returns `Some(w)`, then for every other
candidate `o` of the candidate set, the summed weight of the ballots that
prefer `w` over `o` strictly exceeds the summed weight of the ballots that
prefer `o` over `w`. -/
theorem condorcet_majority (v : Vote T) (w : T)
    (hw : condorcet_winner v = some (some w)) :
    ∀ o ∈ v.candidates, o ≠ w →
      prefWeight v.ballots o w < prefWeight v.ballots w o := by
  intro o ho hne
  rcases condorcetLoop_eq_some v.ballots v.candidates v.candidates none w hw with h1 | ⟨_, hchk⟩
  · cases h1
  · have hof : o ∈ v.candidates.filter (fun x => x ≠ w) := by
      simp [List.mem_filter, ho, hne]
    obtain ⟨s0, s1, hpt, hlt⟩ := checkCandidate_eq_true _ _ _ hchk o hof
    obtain ⟨h0, h1⟩ := pairTally_eq v.ballots w o (Ne.symm hne) s0 s1 hpt
    rw [h0, h1] at hlt
    exact hlt

/-- C1 witness: in the crate's first test election the winner `b` (= 1)
strictly beats `a` (= 0) by summed weight. -/
theorem condorcet_majority_witness :
    prefWeight voteTest1.ballots 0 1 < prefWeight voteTest1.ballots 1 0 :=
  condorcet_majority voteTest1 1 (by decide) 0 (by decide) (by decide)

/-- C7: the spec's Scenario C (a 10/10 pairwise tie between the only two
candidates, checked in both possible set-iteration orders) yields no
Condorcet winner; in general a candidate whose summed pairwise weight
against some opponent does not strictly exceed the opponent's is never the
value `condorcet_winner` returns — a tie counts as a loss. -/
theorem condorcet_tie_counts_as_loss :
    (condorcet_winner (Vote.mk [0, 1] scenarioCBallots) = some none ∧
     condorcet_winner (Vote.mk [1, 0] scenarioCBallots) = some none) ∧
    (∀ (S : Type) [DecidableEq S] (v : Vote S) (c o : S),
      o ∈ v.candidates → o ≠ c →
      prefWeight v.ballots c o ≤ prefWeight v.ballots o c →
      condorcet_winner v ≠ some (some c)) := by
  refine ⟨⟨by decide, by decide⟩, ?_⟩
  intro S instS v c o ho hne hle hwin
  rcases condorcetLoop_eq_some v.ballots v.candidates v.candidates none c hwin with h1 | ⟨_, hchk⟩
  · exact Option.noConfusion h1
  · have hof : o ∈ v.candidates.filter (fun x => x ≠ c) := by
      simp [List.mem_filter, ho, hne]
    obtain ⟨s0, s1, hpt, hlt⟩ := checkCandidate_eq_true _ _ _ hchk o hof
    obtain ⟨h0, h1⟩ := pairTally_eq v.ballots c o (Ne.symm hne) s0 s1 hpt
    rw [h0, h1] at hlt
    omega

/-- A scan over a ballot containing `a` cannot come back empty. -/
theorem who_is_first_isSome (l : List T) (a b : T) (ha : a ∈ l) :
    who_is_first l a b ≠ none := by
  intro hcon
  exact ((who_is_first_eq_none_iff l a b).mp hcon).1 ha

/-- If every ballot ranks `c`, the pair tally for `c` never hits the
`unwrap()` panic. -/
theorem pairTally_isSome (ballots : List (Nat × List T)) (c o : T)
    (h : ∀ wb ∈ ballots, c ∈ wb.2) : pairTally ballots c o ≠ none := by
  induction ballots with
  | nil => simp [pairTally]
  | cons wb rest ih =>
    obtain ⟨w, pre⟩ := wb
    have hc : c ∈ pre := h (w, pre) (List.mem_cons_self _ _)
    cases hw : who_is_first pre c o with
    | none => exact absurd hw (who_is_first_isSome pre c o hc)
    | some x =>
      cases ht : pairTally rest c o with
      | none => exact absurd ht (ih fun wb hm => h wb (List.mem_cons_of_mem _ hm))
      | some p =>
        obtain ⟨s0, s1⟩ := p
        simp only [pairTally, hw, ht]
        split <;> simp

/-- If every ballot ranks `c`, the middle loop for `c` never panics. -/
theorem checkCandidate_isSome (ballots : List (Nat × List T)) (c : T)
    (h : ∀ wb ∈ ballots, c ∈ wb.2) (others : List T) :
    checkCandidate ballots c others ≠ none := by
  induction others with
  | nil => simp [checkCandidate]
  | cons o rest ih =>
    cases hpt : pairTally ballots c o with
    | none => exact absurd hpt (pairTally_isSome ballots c o h)
    | some p =>
      obtain ⟨s0, s1⟩ := p
      simp only [checkCandidate, hpt]
      by_cases hle : s0 ≤ s1
      · rw [if_pos hle]
        simp
      · rw [if_neg hle]
        exact ih

/-- If every walked candidate is ranked by every ballot, the outer loop
never panics. -/
theorem condorcetLoop_isSome (ballots : List (Nat × List T)) (all : List T)
    (l : List T) : ∀ res, (∀ c ∈ l, ∀ wb ∈ ballots, c ∈ wb.2) →
    condorcetLoop ballots all l res ≠ none := by
  induction l with
  | nil =>
    intro res hl
    simp [condorcetLoop]
  | cons c rest ih =>
    intro res hl
    have hc : ∀ wb ∈ ballots, c ∈ wb.2 := hl c (List.mem_cons_self _ _)
    have hrest : ∀ x ∈ rest, ∀ wb ∈ ballots, x ∈ wb.2 :=
      fun x hx => hl x (List.mem_cons_of_mem _ hx)
    cases hchk : checkCandidate ballots c (all.filter (fun x => x ≠ c)) with
    | none => exact absurd hchk (checkCandidate_isSome ballots c hc _)
    | some b =>
      cases b
      · simp only [condorcetLoop, hchk]
        exact ih res hrest
      · simp only [condorcetLoop, hchk]
        exact ih (some c) hrest

/-- C8: when every ballot ranks every member of the candidate set, the
`unwrap()` inside `condorcet_winner` never fails and the function does not
panic (the model never reaches the `none` that stands for a panic). -/
theorem condorcet_no_panic (v : Vote T)
    (h : ∀ wb ∈ v.ballots, ∀ c ∈ v.candidates, c ∈ wb.2) :
    condorcet_winner v ≠ none :=
  condorcetLoop_isSome v.ballots v.candidates v.candidates none
    (fun c hc wb hwb => h wb hwb c hc)

/-- C8 witness: the crate's second test election satisfies the precondition,
so its Condorcet computation cannot panic. -/
theorem condorcet_no_panic_witness : condorcet_winner voteTest2 ≠ none :=
  condorcet_no_panic voteTest2 (by decide)

/-- With no ballots, a middle loop that still has an opponent to examine
fails its candidate at once (the 0-0 tally is a tie, hence a loss). -/
theorem checkCandidate_nil_cons (c o : T) (rest : List T) :
    checkCandidate ([] : List (Nat × List T)) c (o :: rest) = some false := by
  simp [checkCandidate, pairTally]

/-- With no ballots, if every walked candidate still faces some opponent,
the outer loop ends with no winner. -/
theorem condorcetLoop_nil_ballots (all : List T) (l : List T)
    (h : ∀ c ∈ l, all.filter (fun x => x ≠ c) ≠ []) :
    condorcetLoop ([] : List (Nat × List T)) all l none = some none := by
  induction l with
  | nil => rfl
  | cons c rest ih =>
    have hne := h c (List.mem_cons_self _ _)
    cases hf : all.filter (fun x => x ≠ c) with
    | nil => exact absurd hf hne
    | cons o os =>
      have hchk : checkCandidate ([] : List (Nat × List T)) c
          (all.filter (fun x => x ≠ c)) = some false := by
        rw [hf]
        exact checkCandidate_nil_cons c o os
      simp only [condorcetLoop, hchk]
      exact ih (fun x hx => h x (List.mem_cons_of_mem _ hx))

/-- C10: on an election with no ballots `condorcet_winner` returns without
fault, reporting `Some(c)` exactly when the candidate set is the singleton
`{c}` and no winner otherwise (every pairwise tally is then the tie 0-0). -/
theorem condorcet_empty_ballots (v : Vote T) (hb : v.ballots = [])
    (hnd : v.candidates.Nodup) :
    (∀ c, condorcet_winner v = some (some c) ↔ v.candidates = [c]) ∧
    condorcet_winner v ≠ none := by
  obtain ⟨cands, ballots⟩ := v
  simp only at hb hnd
  subst hb
  cases cands with
  | nil =>
    constructor
    · intro c
      simp [condorcet_winner, condorcetLoop]
    · simp [condorcet_winner, condorcetLoop]
  | cons c1 rest =>
    cases rest with
    | nil =>
      have hone : condorcet_winner (Vote.mk [c1] ([] : List (Nat × List T))) = some (some c1) := by
        have hf : ([c1] : List T).filter (fun x => x ≠ c1) = [] := by simp
        simp [condorcet_winner, condorcetLoop, hf, checkCandidate]
      constructor
      · intro c
        rw [hone]
        constructor
        · intro hcc
          have : c1 = c := Option.some.inj (Option.some.inj hcc)
          rw [this]
        · intro hcc
          have : c1 = c := (List.cons.injEq _ _ _ _).mp hcc |>.1
          rw [this]
      · rw [hone]
        simp
    | cons c2 rest2 =>
      have hc12 : c1 ≠ c2 := by
        intro hcon
        rw [List.nodup_cons] at hnd
        exact hnd.1 (hcon ▸ List.mem_cons_self _ _)
      have hmain : condorcet_winner (Vote.mk (c1 :: c2 :: rest2) ([] : List (Nat × List T)))
          = some none := by
        apply condorcetLoop_nil_ballots
        intro c hc
        by_cases h1 : c = c1
        · subst h1
          have hm : c2 ∈ (c :: c2 :: rest2).filter (fun x => x ≠ c) := by
            simp [List.mem_filter, Ne.symm hc12]
          exact List.ne_nil_of_mem hm
        · have hm : c1 ∈ (c1 :: c2 :: rest2).filter (fun x => x ≠ c) := by
            simp [List.mem_filter]
            exact fun hcon => h1 hcon.symm
          exact List.ne_nil_of_mem hm
      constructor
      · intro c
        rw [hmain]
        simp
      · rw [hmain]
        simp

/-- C10 witness: a singleton candidate set with no ballots yields that sole
candidate. -/
theorem condorcet_empty_ballots_witness :
    condorcet_winner (Vote.mk ([7] : List Nat) []) = some (some 7) :=
  ((condorcet_empty_ballots (Vote.mk [7] []) rfl (by decide)).1 7).mpr rfl

/-- Adding weight for the key a singleton map already holds. -/
theorem addScore_single (c : T) (s n : Nat) :
    addScore [(c, s)] c n = [(c, s + n)] := by
  simp [addScore]

/-- The tally loop started on a singleton map keyed `c` stays a singleton
keyed `c` while every remaining ballot's first choice is `c`. -/
theorem buildScoresAux_single (c : T) (ballots : List (Nat × List T))
    (h : ∀ wb ∈ ballots, wb.2.head? = some c) :
    ∀ s, ∃ s', buildScoresAux [(c, s)] ballots = some [(c, s')] := by
  induction ballots with
  | nil => exact fun s => ⟨s, rfl⟩
  | cons wb rest ih =>
    intro s
    obtain ⟨n, pre⟩ := wb
    have hh : pre.head? = some c := h (n, pre) (List.mem_cons_self _ _)
    obtain ⟨s', hs'⟩ := ih (fun wb hm => h wb (List.mem_cons_of_mem _ hm)) (s + n)
    refine ⟨s', ?_⟩
    simp only [buildScoresAux, hh, addScore_single]
    exact hs'

/-- C9: an election whose first-preference tally has at most one entry — no
ballots at all, or every ballot putting the same candidate first — drives
`one_stage` off the end of its comparison loop into `unreachable!()`; the
model returns the `none` that stands for that panic instead of a winner. -/
theorem one_stage_degenerate (v : Vote T)
    (h : v.ballots = [] ∨ ∃ c, ∀ wb ∈ v.ballots, wb.2.head? = some c) :
    one_stage v = none := by
  rcases h with hb | ⟨c, hc⟩
  · simp [one_stage, buildScores, hb, buildScoresAux, sortByScore, oneStageLoop]
  · cases hbs : v.ballots with
    | nil => simp [one_stage, buildScores, hbs, buildScoresAux, sortByScore, oneStageLoop]
    | cons wb rest =>
      obtain ⟨n, pre⟩ := wb
      have hh : pre.head? = some c :=
        hc (n, pre) (by rw [hbs]; exact List.mem_cons_self _ _)
      have hrest : ∀ wb ∈ rest, wb.2.head? = some c :=
        fun wb hm => hc wb (by rw [hbs]; exact List.mem_cons_of_mem _ hm)
      obtain ⟨s', hs'⟩ := buildScoresAux_single c rest hrest 0
      have hbuild : buildScores v.ballots = some [(c, s')] := by
        rw [hbs]
        simp only [buildScores, buildScoresAux, hh]
        simpa [addScore] using hs'
      simp [one_stage, hbuild, sortByScore, insertAsc, oneStageLoop]

/-- C9 witness: two ballots that both put candidate 0 first leave a
single-entry tally and `one_stage` panics. -/
theorem one_stage_degenerate_witness : one_stage voteSoleFirst = none :=
  one_stage_degenerate voteSoleFirst (Or.inr ⟨0, by decide⟩)

/-- Membership in a stable ascending insertion. -/
theorem mem_insertAsc (p q : T × Nat) (l : List (T × Nat)) :
    p ∈ insertAsc q l ↔ p = q ∨ p ∈ l := by
  induction l with
  | nil => simp [insertAsc]
  | cons r rest ih =>
    simp only [insertAsc]
    by_cases hlt : q.2 < r.2
    · rw [if_pos hlt]
      simp
    · rw [if_neg hlt]
      simp only [List.mem_cons, ih]
      tauto

/-- Sorting by score permutes the entries: membership is unchanged. -/
theorem mem_sortByScore (p : T × Nat) (l : List (T × Nat)) :
    p ∈ sortByScore l ↔ p ∈ l := by
  induction l with
  | nil => simp [sortByScore]
  | cons q rest ih => simp [sortByScore, mem_insertAsc, ih]

/-- A candidate the selection loop returns is an entry of the sorted list it
walked (or of the accumulator it started from). -/
theorem oneStageLoop_mem (l : List (T × Nat)) :
    ∀ acc c, oneStageLoop l acc = some (some c) →
      (∃ s, (c, s) ∈ l) ∨ (∃ s, acc = some (c, s)) := by
  induction l with
  | nil =>
    intro acc c h
    cases acc with
    | none => exact Option.noConfusion h
    | some p => exact Option.noConfusion h
  | cons q rest ih =>
    intro acc c h
    obtain ⟨c1, s1⟩ := q
    cases acc with
    | none =>
      simp only [oneStageLoop] at h
      rcases ih _ c h with ⟨s, hs⟩ | ⟨s, hs⟩
      · exact Or.inl ⟨s, List.mem_cons_of_mem _ hs⟩
      · obtain ⟨h1, h2⟩ := Prod.mk.injEq .. |>.mp (Option.some.inj hs)
        exact Or.inl ⟨s1, by rw [← h1]; exact List.mem_cons_self _ _⟩
    | some p =>
      obtain ⟨cOld, sOld⟩ := p
      simp only [oneStageLoop] at h
      have h' := Option.some.inj h
      by_cases he : sOld = s1
      · rw [if_pos he] at h'
        exact Option.noConfusion h'
      · rw [if_neg he] at h'
        have hc : cOld = c := Option.some.inj h'
        exact Or.inr ⟨sOld, by rw [hc]⟩

/-- A key of the map after one `entry(..).and_modify(..).or_insert(0)` step
is the inserted key or a key the map already had. -/
theorem addScore_mem_key (m : List (T × Nat)) (k : T) (n : Nat) (c : T) (s : Nat)
    (h : (c, s) ∈ addScore m k n) : c = k ∨ ∃ s', (c, s') ∈ m := by
  induction m with
  | nil =>
    simp [addScore] at h
    exact Or.inl h.1
  | cons q rest ih =>
    obtain ⟨k1, v1⟩ := q
    simp only [addScore] at h
    by_cases hk : k1 = k
    · rw [if_pos hk] at h
      rcases List.mem_cons.mp h with heq | hm
      · obtain ⟨h1, _⟩ := Prod.mk.injEq .. |>.mp heq
        exact Or.inl (h1.trans hk)
      · exact Or.inr ⟨s, List.mem_cons_of_mem _ hm⟩
    · rw [if_neg hk] at h
      rcases List.mem_cons.mp h with heq | hm
      · exact Or.inr ⟨s, by rw [heq]; exact List.mem_cons_self _ _⟩
      · rcases ih hm with h1 | ⟨s', hs'⟩
        · exact Or.inl h1
        · exact Or.inr ⟨s', List.mem_cons_of_mem _ hs'⟩

/-- Every key of the finished score map is the first choice of some ballot
(or was already a key of the accumulator the loop started from). -/
theorem buildScoresAux_key (ballots : List (Nat × List T)) :
    ∀ acc m, buildScoresAux acc ballots = some m →
      ∀ c s, (c, s) ∈ m →
        (∃ s', (c, s') ∈ acc) ∨ ∃ wb ∈ ballots, wb.2.head? = some c := by
  induction ballots with
  | nil =>
    intro acc m h c s hm
    have hacc : acc = m := Option.some.inj h
    exact Or.inl ⟨s, hacc ▸ hm⟩
  | cons wb rest ih =>
    intro acc m h c s hm
    obtain ⟨n, pre⟩ := wb
    cases hh : pre.head? with
    | none =>
      simp only [buildScoresAux, hh] at h
      exact Option.noConfusion h
    | some k =>
      simp only [buildScoresAux, hh] at h
      rcases ih _ _ h c s hm with ⟨s', hs'⟩ | ⟨wb', hwb', hhd⟩
      · rcases addScore_mem_key acc k n c s' hs' with h1 | ⟨s'', hs''⟩
        · refine Or.inr ⟨(n, pre), List.mem_cons_self _ _, ?_⟩
          show pre.head? = some c
          rw [hh, h1]
        · exact Or.inl ⟨s'', hs''⟩
      · exact Or.inr ⟨wb', List.mem_cons_of_mem _ hwb', hhd⟩

/-- C5 counterexample: the claim as stated fails — nothing ties a ballot's
entries to the candidate set, and a ballot whose first choice is the
non-candidate 9 makes `one_stage` return a value outside the set. -/
theorem winner_membership_cex :
    one_stage voteStray = some (some 9) ∧ (9 : Nat) ∉ voteStray.candidates := by
  decide

/-- C5 amended: a `Some` result of `condorcet_winner` is always a member of
the candidate set; a `Some` result of `one_stage` is the first choice of
some ballot, hence a member of the candidate set provided every ballot's
first choice belongs to it. -/
theorem winner_membership_amended (v : Vote T) (c : T) :
    (condorcet_winner v = some (some c) → c ∈ v.candidates) ∧
    ((∀ wb ∈ v.ballots, ∀ x, wb.2.head? = some x → x ∈ v.candidates) →
      one_stage v = some (some c) → c ∈ v.candidates) := by
  constructor
  · intro h
    rcases condorcetLoop_eq_some v.ballots v.candidates v.candidates none c h with h1 | ⟨hm, _⟩
    · exact Option.noConfusion h1
    · exact hm
  · intro hwf h
    cases hbs : buildScores v.ballots with
    | none =>
      simp only [one_stage, hbs] at h
      exact Option.noConfusion h
    | some m =>
      simp only [one_stage, hbs] at h
      rcases oneStageLoop_mem (sortByScore m) none c h with ⟨s, hs⟩ | ⟨s, hs⟩
      · have hm : (c, s) ∈ m := (mem_sortByScore _ _).mp hs
        rcases buildScoresAux_key v.ballots [] m hbs c s hm with ⟨s', hs'⟩ | ⟨wb, hwb, hhd⟩
        · exact absurd hs' (List.not_mem_nil _)
        · exact hwf wb hwb c hhd
      · exact Option.noConfusion hs

/-- C2: `one_stage` walks the ascending-sorted scores from the front, so it
compares the two lowest entries and returns the lowest-scoring candidate:
on `voteLowest` it reports candidate 1 (map score 2, true first-choice
weight 3) although candidate 0 holds both the top map score 4 and the top
true first-choice weight 7. -/
theorem one_stage_returns_lowest :
    one_stage voteLowest = some (some 1) ∧
    buildScores voteLowest.ballots = some [(0, 4), (1, 2)] ∧
    firstChoiceWeight voteLowest.ballots 0 = 7 ∧
    firstChoiceWeight voteLowest.ballots 1 = 3 := by
  decide

/-- C3: `or_insert(0)` inserts score 0 for a candidate's first ballot, so a
single ballot of weight 10 leaves its candidate with accumulated score 0,
not the claimed full first-preference weight 10. -/
theorem one_stage_drops_first_weight :
    buildScores [(10, [(0 : Nat), 1])] = some [(0, 0)] ∧
    firstChoiceWeight [(10, [(0 : Nat), 1])] 0 = 10 := by
  decide

/-- C4: on `voteTieTop` the true first-preference weights tie at the top
(10 for candidates 0 and 1, 5 for candidate 2), yet `one_stage` returns
`Some 0` instead of the claimed `None`; the spec's Scenario D itself, where
the dropped first weights still leave a tie, does return `None`. -/
theorem one_stage_misses_top_tie :
    one_stage voteTieTop = some (some 0) ∧
    firstChoiceWeight voteTieTop.ballots 0 = 10 ∧
    firstChoiceWeight voteTieTop.ballots 1 = 10 ∧
    firstChoiceWeight voteTieTop.ballots 2 = 5 ∧
    one_stage voteScenarioD = some none := by
  decide

/-- The embedding reproduces the crate's test `condorcet_1`: winner `b`. -/
theorem condorcet_test_1 : condorcet_winner voteTest1 = some (some 1) := by decide

/-- The embedding reproduces the crate's test `condorcet_2`: winner `b`. -/
theorem condorcet_test_2 : condorcet_winner voteTest2 = some (some 1) := by decide

end SocialChoice
